import Mathlib

/-!
# Verification of the pdfOcr2Word conversion core

Shallow embedding of `src/converter/pdf_ocr_to_word.py` and the claims of
the specification.  Text is modelled as `List Char` (Python `str`),
regular-expression substitutions as single left-to-right scans performing
the leftmost non-overlapping matches the `re` engine performs, and the
thread pool of `_ocr_pages_in_parallel` as an explicit completion order,
an arbitrary permutation of the page indices.
-/

namespace PdfOcr

/-- The set of characters matched by Python's `\s` (and stripped by
`str.strip`) for `str` patterns, as code points. -/
def wsCodes : List Nat :=
  [0x09, 0x0a, 0x0b, 0x0c, 0x0d, 0x1c, 0x1d, 0x1e, 0x1f, 0x20,
   0x85, 0xa0, 0x1680,
   0x2000, 0x2001, 0x2002, 0x2003, 0x2004, 0x2005, 0x2006, 0x2007,
   0x2008, 0x2009, 0x200a, 0x2028, 0x2029, 0x202f, 0x205f, 0x3000]

/-- `c` is a whitespace character in Python's sense (`\s`, `str.strip`). -/
def isWsChar (c : Char) : Bool := c.toNat ∈ wsCodes

/-- `c` lies in the character class `[一-龥]` (`一`–`龥`) used by
`_clean_chinese_spacing`. -/
def isCJKChar (c : Char) : Bool := 0x4e00 ≤ c.toNat && c.toNat ≤ 0x9fa5

theorem isCJKChar_not_ws {c : Char} (h : isCJKChar c = true) : isWsChar c = false := by
  simp only [isCJKChar, Bool.and_eq_true, decide_eq_true_eq] at h
  simp only [isWsChar, wsCodes, List.mem_cons, List.not_mem_nil, or_false,
    decide_eq_false_iff_not]
  omega

/-- Pending state of the scan of `re.sub(r"([一-龥])\s+([一-龥])", r"\1\2", ·)`:
`some (c, ws)` means the scanner sits on a potential match anchor: a CJK
character `c` followed so far by the (reversed) whitespace run `ws`. -/
def flushPending : Option (Char × List Char) → List Char
  | none => []
  | some (c, ws) => c :: ws.reverse

/-- One pass of `re.sub(r"([一-龥])\s+([一-龥])", r"\1\2", ·)` as a single
left-to-right scan.  A match needs a CJK anchor, a nonempty whitespace run,
and a closing CJK character; on a match the whitespace is dropped and the
scan resumes after the closing character (matches are non-overlapping, so
the closing character of one match cannot anchor the next).  Whitespace
characters can never anchor a match, so a failed anchor emits its pending
characters verbatim. -/
def cleanGo (pending : Option (Char × List Char)) : List Char → List Char
  | [] => flushPending pending
  | x :: rest =>
    match pending with
    | none =>
      if isCJKChar x then cleanGo (some (x, [])) rest
      else x :: cleanGo none rest
    | some (c, ws) =>
      if isWsChar x then cleanGo (some (c, x :: ws)) rest
      else if isCJKChar x then
        if ws.isEmpty then c :: cleanGo (some (x, [])) rest
        else c :: x :: cleanGo none rest
      else c :: ws.reverse ++ x :: cleanGo none rest

/-- `_clean_chinese_spacing` on character lists. -/
def cleanSpacingL (l : List Char) : List Char := cleanGo none l

/-- `_clean_chinese_spacing` from the source. -/
def cleanChineseSpacing (s : String) : String := ⟨cleanSpacingL s.data⟩

/-- `re.sub(r"\s+", " ", ·)` as a scan: each maximal whitespace run becomes
a single ASCII space.  `prevWs` records whether the previous character was
part of a run already replaced. -/
def collapseGo (prevWs : Bool) : List Char → List Char
  | [] => []
  | c :: rest =>
    if isWsChar c then
      if prevWs then collapseGo true rest
      else ' ' :: collapseGo true rest
    else c :: collapseGo false rest

/-- `re.sub(r"\s+", " ", ·)` from `_format_page_text`. -/
def collapseWs (l : List Char) : List Char := collapseGo false l

/-- Python `str.strip()`: drop leading and trailing whitespace. -/
def stripBoth (l : List Char) : List Char :=
  ((l.dropWhile isWsChar).reverse.dropWhile isWsChar).reverse

/-- The line-break characters recognised by Python `str.splitlines`. -/
def lineBreakCodes : List Nat :=
  [0x0a, 0x0d, 0x0b, 0x0c, 0x1c, 0x1d, 0x1e, 0x85, 0x2028, 0x2029]

/-- `c` is a line boundary for Python `str.splitlines`. -/
def isLineBreakChar (c : Char) : Bool := c.toNat ∈ lineBreakCodes

/-- Scanner for Python `str.splitlines()`: `cur` is the reversed current
line; a break character ends the current line (with `"\r\n"` counting as a
single break); a trailing break produces no extra empty line. -/
def splitlinesGo (cur : List Char) : List Char → List (List Char)
  | [] => if cur.isEmpty then [] else [cur.reverse]
  | '\r' :: '\n' :: rest => cur.reverse :: splitlinesGo [] rest
  | c :: rest =>
    if isLineBreakChar c then cur.reverse :: splitlinesGo [] rest
    else splitlinesGo (c :: cur) rest

/-- Python `str.splitlines()`. -/
def pySplitlines (l : List Char) : List (List Char) := splitlinesGo [] l

/-- The `end_punct` tuple of `_format_page_text`, one character per entry.
Note that the half-width period `'.'` is NOT a member. -/
def endPunctChars : List Char :=
  ['。', '！', '？', '!', '?', '：', ':', '；', ';', '…', '”', '"', '）', ')']

/-- `buf.endswith(end_punct)`: the buffer's last character is one of the
`end_punct` characters (each tuple entry is a single character; an empty
buffer ends with none of them). -/
def endsWithEndPunct (l : List Char) : Bool :=
  match l.getLast? with
  | some c => c ∈ endPunctChars
  | none => false

/-- The per-line normalisation inside the merge loop of `_format_page_text`:
`ln = _clean_chinese_spacing(ln)` then `ln = re.sub(r"\s+", " ", ln)`. -/
def lineTransform (l : List Char) : List Char := collapseWs (cleanSpacingL l)

/-- One iteration of the merge loop of `_format_page_text`, acting on
`(merged, buf)`. -/
def mergeStep (st : List (List Char) × List Char) (ln0 : List Char) :
    List (List Char) × List Char :=
  let ln := lineTransform ln0
  if st.2.isEmpty then (st.1, ln)
  else if endsWithEndPunct st.2 then (st.1 ++ [st.2], ln)
  else (st.1, st.2 ++ ' ' :: ln)

/-- The merge loop of `_format_page_text` including the final
`if buf: merged.append(buf)`. -/
def mergeLines (lines : List (List Char)) : List (List Char) :=
  let st := lines.foldl mergeStep ([], [])
  if st.2.isEmpty then st.1 else st.1 ++ [st.2]

/-- The list of stripped non-blank lines of `_format_page_text`:
`[ln.strip() for ln in text.splitlines() if ln.strip() != ""]`. -/
def nonBlankLines (l : List Char) : List (List Char) :=
  ((pySplitlines l).map stripBoth).filter (fun x => !x.isEmpty)

/-- The paragraph list `merged` computed by `_format_page_text` (on the
already stripped page text; empty text short-circuits to no paragraphs). -/
def formatParagraphs (l : List Char) : List (List Char) :=
  let t := stripBoth l
  if t.isEmpty then [] else mergeLines (nonBlankLines t)

/-- `_format_page_text` from the source: strip, split into non-blank
lines, per line clean CJK spacing and collapse whitespace runs, merge
lines into paragraphs and join the paragraphs with `"\n\n"`. -/
def formatPageText (s : String) : String :=
  ⟨List.intercalate ['\n', '\n'] (formatParagraphs s.data)⟩

/-- Python `str.replace(old, new)`: replace the leftmost non-overlapping
occurrences of `old` by `new`, left to right; an empty `old` matches at
every position.  The `fuel` argument only bounds the recursion; with
`fuel ≥ length` of the scanned text it never runs out, because a match
consumes at least one character. -/
def pyReplaceFuel (old new : List Char) : Nat → List Char → List Char
  | _, [] => if old.isEmpty then new else []
  | 0, s => s
  | fuel + 1, c :: rest =>
    if old.isEmpty then new ++ c :: pyReplaceFuel old new fuel rest
    else if old.isPrefixOf (c :: rest) then
      new ++ pyReplaceFuel old new fuel ((c :: rest).drop old.length)
    else c :: pyReplaceFuel old new fuel rest

/-- Python `str.replace(old, new)` on character lists. -/
def pyReplaceL (old new s : List Char) : List Char := pyReplaceFuel old new s.length s

/-- Python `str.replace` on strings. -/
def pyReplace (s old new : String) : String := ⟨pyReplaceL old.data new.data s.data⟩

/-- Python `text or ""`: the empty string (falsy) maps to `""`, any other
string to itself. -/
def orEmpty (s : String) : String := if s = "" then "" else s

theorem orEmpty_eq (s : String) : orEmpty s = s := by
  unfold orEmpty
  split <;> simp_all

/-- The per-page body of `_extract_text_layer_pages`: `page.extract_text()`
may return `None` or a string; a falsy result contributes the empty
placeholder; otherwise the text is CJK-spacing-cleaned, then each token of
`remove_tokens` is removed by `str.replace`, then (when `auto_format`)
`_format_page_text` is applied, and the result is stripped. -/
def extractPageText (content : Option String) (removeTokens : List String)
    (autoFormat : Bool) : String :=
  match content with
  | none => ""
  | some c =>
    if c = "" then ""
    else
      let c1 := cleanChineseSpacing c
      let c2 := removeTokens.foldl (fun acc t => pyReplace acc t "") c1
      let c3 := if autoFormat then formatPageText c2 else c2
      ⟨stripBoth c3.data⟩

/-- Modelled from the spec's stated transformation order for text-layer
mode ("Token removal … is performed first, before the CJK spacing
repair"): identical to `extractPageText` except that the configured tokens
are removed from the raw text before the CJK spacing repair.  This
definition follows the spec's words only, for comparison with
`extractPageText`, which follows the source. -/
def specOrderPageText (content : Option String) (removeTokens : List String)
    (autoFormat : Bool) : String :=
  match content with
  | none => ""
  | some c =>
    if c = "" then ""
    else
      let c1 := removeTokens.foldl (fun acc t => pyReplace acc t "") c
      let c2 := cleanChineseSpacing c1
      let c3 := if autoFormat then formatPageText c2 else c2
      ⟨stripBoth c3.data⟩

/-- `_extract_text_layer_pages`: the page texts, in page order. -/
def extractTextLayerPages (pages : List (Option String))
    (removeTokens : List String) (autoFormat : Bool) : List String :=
  pages.map (fun p => extractPageText p removeTokens autoFormat)

/-- One completion step of the shared progress counter: under the lock the
counter is incremented and the new `(completed, total)` pair is reported.
The state is `(processed, trace of callback invocations so far)`. -/
def progressStep (total : Nat) (st : Nat × List (Nat × Nat)) :
    Nat × List (Nat × Nat) :=
  (st.1 + 1, st.2 ++ [(st.1 + 1, total)])

/-- The sequence of `(completed, total)` pairs passed to
`progress_callback` by `_ocr_pages_in_parallel`: `(0, total)` is reported
before dispatch, then each task completion (in completion order `order`)
atomically increments the counter and reports. -/
def parallelProgressTrace (total : Nat) (order : List Nat) : List (Nat × Nat) :=
  (order.foldl (fun st _ => progressStep total st) (0, [(0, total)])).2

/-- The sequence of `(completed, total)` pairs passed to
`progress_callback` by `_extract_text_layer_pages`: `(0, total)` after
opening the source, then one report after each page. -/
def textLayerProgressTrace (pages : List (Option String)) : List (Nat × Nat) :=
  (pages.foldl (fun st _ => progressStep pages.length st) (0, [(0, pages.length)])).2

/-- The OCR engine selected by `ocr_engine`. -/
inductive OcrEngine
  | tesseract
  | paddle
deriving DecidableEq

/-- The body of `worker` in `_ocr_pages_in_parallel`: recognise one image
with the selected engine (each engine boundary `(lang, image) -> text` is
an external collaborator) and coerce a falsy result to `""`. -/
def workerRecognize (engine : OcrEngine) (lang : String)
    (tess paddle : String → α → String) (img : α) : String :=
  match engine with
  | .paddle => orEmpty (paddle lang img)
  | .tesseract => orEmpty (tess lang img)

/-- The result collection of `_ocr_pages_in_parallel`: a pre-sized slot
list `[None] * total`; the task for page `i` writes its text into slot
`i`.  `order` is the order in which tasks complete. -/
def runWorkers [Inhabited α] (images : List α) (engine : OcrEngine)
    (lang : String) (tess paddle : String → α → String)
    (order : List Nat) : List (Option String) :=
  order.foldl
    (fun acc i =>
      acc.set i (some (workerRecognize engine lang tess paddle (images.getD i default))))
    (List.replicate images.length none)

/-- `_ocr_pages_in_parallel`: dispatch every page, collect slot-indexed
results, and coerce unfilled or falsy entries with `t or ""`.
`maxWorkers` bounds the pool but does not enter the data flow; `order` is
the completion order actually realised by the pool. -/
def ocrPagesInParallel [Inhabited α] (images : List α) (lang : String)
    (engine : OcrEngine) (tess paddle : String → α → String)
    (maxWorkers : Option Nat) (order : List Nat) : List String :=
  let results := runWorkers images engine lang tess paddle order
  results.map (fun t =>
    match t with
    | none => ""
    | some s => orEmpty s)

/-- One block of the persisted document, at the document-assembly
boundary: a paragraph (`doc.add_paragraph`) or a page break
(`doc.add_page_break`). -/
inductive DocItem
  | paragraph (text : String)
  | pageBreak
deriving DecidableEq

/-- The document-assembly loop shared by `convert_pdf_to_docx`,
`extract_pdf_text_to_docx` and `convert_pdf_to_docx_mac_vision`:
`for idx, text in enumerate(page_texts, 1): add_paragraph(text or "");
if idx != len(page_texts): add_page_break()`. -/
def assembleDoc (texts : List String) : List DocItem :=
  (List.enumFrom 1 texts).foldl
    (fun doc p =>
      let doc := doc ++ [DocItem.paragraph (orEmpty p.2)]
      if p.1 ≠ texts.length then doc ++ [DocItem.pageBreak] else doc)
    []

/-- The error taxonomy of the conversion entry points. -/
inductive ConvError
  | sourceNotFound
  | emptySource
  | engineUnavailable
deriving DecidableEq

/-- `convert_pdf_to_docx` (tesseract/paddle path), through the persisted
document: missing input raises `FileNotFoundError`; an empty rasterisation
result raises `ValueError` (`if not images`) before any OCR or document
work; otherwise the pages are OCRed in parallel, optionally formatted, and
assembled.  `images` is the rasteriser's output, `order` the pool's
completion order. -/
def convertPdfToDocx [Inhabited α] (pathExists : Bool) (images : List α)
    (lang : String) (engine : OcrEngine) (tess paddle : String → α → String)
    (maxWorkers : Option Nat) (autoFormat : Bool) (order : List Nat) :
    Except ConvError (List DocItem) :=
  if !pathExists then .error .sourceNotFound
  else if images.isEmpty then .error .emptySource
  else
    let pageTexts := ocrPagesInParallel images lang engine tess paddle maxWorkers order
    let pageTexts := if autoFormat then pageTexts.map formatPageText else pageTexts
    .ok (assembleDoc pageTexts)

/-- `convert_pdf_to_docx_mac_vision`, through the persisted document:
missing PyMuPDF or ocrmac raises `RuntimeError`; a missing input raises
`FileNotFoundError`; the pages are then recognised sequentially with the
Vision engine, optionally formatted, and assembled.  There is no check for
an empty page list. -/
def convertPdfToDocxMacVision (fitzAvailable ocrmacAvailable pathExists : Bool)
    (pages : List α) (recognize : α → String) (autoFormat : Bool) :
    Except ConvError (List DocItem) :=
  if !fitzAvailable then .error .engineUnavailable
  else if !ocrmacAvailable then .error .engineUnavailable
  else if !pathExists then .error .sourceNotFound
  else
    let pageTexts := pages.map recognize
    let pageTexts := if autoFormat then pageTexts.map formatPageText else pageTexts
    .ok (assembleDoc pageTexts)

/-- `extract_pdf_text_to_docx` (text-layer path), through the persisted
document. -/
def extractPdfTextToDocx (pathExists : Bool) (pages : List (Option String))
    (removeTokens : List String) (autoFormat : Bool) :
    Except ConvError (List DocItem) :=
  if !pathExists then .error .sourceNotFound
  else .ok (assembleDoc (extractTextLayerPages pages removeTokens autoFormat))

/-- Python `str.lower` restricted to its ASCII action (`'A'`–`'Z'` map to
`'a'`–`'z'`); on the characters of any case variant of `".docx"` this
agrees with full `str.lower`. -/
def asciiLower (c : Char) : Char :=
  if 0x41 ≤ c.toNat ∧ c.toNat ≤ 0x5a then Char.ofNat (c.toNat + 0x20) else c

/-- Python `str.lower` character-wise on a list. -/
def pyLower (l : List Char) : List Char := l.map asciiLower

/-- Python `str.endswith(suffix)`: the last `len(suffix)` characters equal
`suffix`. -/
def pyEndsWith (s suffix : List Char) : Bool :=
  s.drop (s.length - suffix.length) == suffix

/-- The characters of `".docx"`. -/
def docxSuffix : List Char := ['.', 'd', 'o', 'c', 'x']

/-- The output-path normalisation shared by all three conversion
functions: `if not output_path.lower().endswith(".docx"): output_path =
output_path + ".docx"`. -/
def finalizeOutputPath (p : String) : String :=
  if pyEndsWith (pyLower p.data) docxSuffix then p else p ++ ".docx"

/-- No two consecutive characters are both whitespace. -/
def noDoubleWs : List Char → Bool
  | [] => true
  | [_] => true
  | a :: b :: rest => !(isWsChar a && isWsChar b) && noDoubleWs (b :: rest)

/-- The first character, if any, is not whitespace. -/
def headNotWs (l : List Char) : Bool :=
  match l.head? with
  | some c => !isWsChar c
  | none => true

/-- The last character, if any, is not whitespace. -/
def lastNotWs (l : List Char) : Bool :=
  match l.getLast? with
  | some c => !isWsChar c
  | none => true

/-- A well-formed paragraph: nonempty, no leading or trailing whitespace,
and no run of two or more consecutive whitespace characters. -/
def goodPara (p : List Char) : Bool :=
  !p.isEmpty && headNotWs p && lastNotWs p && noDoubleWs p

/-- Helper for `splitAtTerminal`: `buf` is the open paragraph buffer. -/
def goSplit (buf : List Char) : List (List Char) → List (List Char)
  | [] => [buf]
  | l :: rest =>
    if endsWithEndPunct buf then buf :: goSplit l rest
    else goSplit (buf ++ ' ' :: l) rest

/-- The line-merge rule as the (amended) spec states it, on a sequence of
already-cleaned non-blank lines: a line is joined to the open buffer with
a single space unless the buffer ends with a character of
`endPunctChars`, in which case the buffer is emitted and the line opens a
new buffer. -/
def splitAtTerminal : List (List Char) → List (List Char)
  | [] => []
  | l :: rest => goSplit l rest

/-- `DocItem` classifiers for counting blocks of the persisted document. -/
def DocItem.isPara : DocItem → Bool
  | .paragraph _ => true
  | .pageBreak => false

/-- The text of a paragraph block, `none` for a page break. -/
def DocItem.paraText : DocItem → Option String
  | .paragraph t => some t
  | .pageBreak => none

/-- `true` exactly on page breaks. -/
def DocItem.isBreak : DocItem → Bool
  | .paragraph _ => false
  | .pageBreak => true

/-- The canonical progress trace of a run over `n` pages:
`(0, n), (1, n), …, (n, n)`. -/
def canonicalTrace (n : Nat) : List (Nat × Nat) :=
  (0, n) :: (List.range n).map (fun k => (k + 1, n))

/-! ## Properties of the CJK spacing repair -/

theorem cleanGo_some_cons (c : Char) (ws l : List Char) :
    ∃ t, cleanGo (some (c, ws)) l = c :: t := by
  induction l generalizing ws with
  | nil => exact ⟨ws.reverse, rfl⟩
  | cons x rest ih =>
    simp only [cleanGo]
    split
    · exact ih (x :: ws)
    · split
      · split
        · exact ⟨_, rfl⟩
        · exact ⟨_, rfl⟩
      · exact ⟨_, rfl⟩

theorem cleanGo_ne_nil (p : Option (Char × List Char)) (l : List Char)
    (h : l ≠ []) : cleanGo p l ≠ [] := by
  match l, h with
  | x :: rest, _ =>
    cases p with
    | none =>
      simp only [cleanGo]
      split
      · obtain ⟨t, ht⟩ := cleanGo_some_cons x [] rest
        simp [ht]
      · simp
    | some cw =>
      obtain ⟨t, ht⟩ := cleanGo_some_cons cw.1 cw.2 (x :: rest)
      simp [ht]

theorem length_cleanGo_le (l : List Char) (p : Option (Char × List Char)) :
    (cleanGo p l).length ≤ (flushPending p).length + l.length := by
  induction l generalizing p with
  | nil => simp [cleanGo]
  | cons x rest ih =>
    cases p with
    | none =>
      simp only [cleanGo]
      split
      · have := ih (some (x, []))
        simp [flushPending] at this ⊢
        omega
      · have := ih none
        simp [flushPending] at this ⊢
        omega
    | some cw =>
      obtain ⟨c, ws⟩ := cw
      simp only [cleanGo, flushPending]
      split
      · have := ih (some (c, x :: ws))
        simp [flushPending] at this ⊢
        omega
      · split
        · split
          · have := ih (some (x, []))
            simp [flushPending] at this ⊢
            omega
          · have := ih none
            simp [flushPending] at this ⊢
            omega
        · have := ih none
          simp [flushPending] at this ⊢
          omega

theorem cleanGo_progress (l : List Char) (p : Option (Char × List Char)) :
    cleanGo p l = flushPending p ++ l ∨
      (cleanGo p l).length < (flushPending p).length + l.length := by
  induction l generalizing p with
  | nil => left; simp [cleanGo]
  | cons x rest ih =>
    cases p with
    | none =>
      simp only [cleanGo]
      split
      · rcases ih (some (x, [])) with h | h
        · left; simpa [flushPending] using h
        · right; simp [flushPending] at h ⊢; omega
      · rcases ih none with h | h
        · left; simp [flushPending] at h; simp [h, flushPending]
        · right; simp [flushPending] at h ⊢; omega
    | some cw =>
      obtain ⟨c, ws⟩ := cw
      simp only [cleanGo, flushPending]
      split
      · rcases ih (some (c, x :: ws)) with h | h
        · left; simp [flushPending] at h; simp [h]
        · right; simp [flushPending] at h ⊢; omega
      · split
        · split
          · rcases ih (some (x, [])) with h | h
            · left
              simp_all [flushPending, List.isEmpty_iff]
            · right; simp [flushPending] at h ⊢; omega
          · right
            have := length_cleanGo_le rest none
            have hws : ws ≠ [] := by
              simp [List.isEmpty_iff] at *
              assumption
            have : 0 < ws.length := List.length_pos.mpr hws
            simp [flushPending] at *
            omega
        · rcases ih none with h | h
          · left; simp [flushPending] at h; simp [h]
          · right; simp [flushPending] at h ⊢; omega

/-- Each application of `_clean_chinese_spacing` either fixes its input or
strictly shortens it. -/
theorem cleanChineseSpacing_progress (s : String) :
    cleanChineseSpacing s = s ∨ (cleanChineseSpacing s).length < s.length := by
  rcases cleanGo_progress s.data none with h | h
  · left
    simp only [cleanChineseSpacing, cleanSpacingL]
    rw [h]
    simp [flushPending]
  · right
    have hl : (cleanChineseSpacing s).length = (cleanGo none s.data).length := rfl
    have hs : s.length = s.data.length := rfl
    rw [hl, hs]
    simpa [flushPending] using h

/-- Iterating `_clean_chinese_spacing` reaches a fixed point. -/
theorem cleanChineseSpacing_iterate_fixed (s : String) :
    ∃ n, cleanChineseSpacing^[n + 1] s = cleanChineseSpacing^[n] s := by
  by_cases h : cleanChineseSpacing s = s
  · exact ⟨0, by simpa using h⟩
  · have hlt := (cleanChineseSpacing_progress s).resolve_left h
    obtain ⟨n, hn⟩ := cleanChineseSpacing_iterate_fixed (cleanChineseSpacing s)
    refine ⟨n + 1, ?_⟩
    rw [Function.iterate_succ_apply cleanChineseSpacing (n + 1) s,
      Function.iterate_succ_apply cleanChineseSpacing n s]
    exact hn
termination_by s.length
decreasing_by exact hlt

/-- C4 counterexample: the spacing-repair transform is not idempotent.  On
`"中 文 字"` one application yields `"中文 字"` (the middle character was
consumed by the first match and cannot anchor a second one), while a
second application yields `"中文字"`. -/
theorem c4_counterexample :
    cleanChineseSpacing (cleanChineseSpacing "中 文 字") ≠
      cleanChineseSpacing "中 文 字" := by decide

/-- C4 (amended): the CJK spacing-repair transform is not idempotent in
general; instead, every application either leaves the string unchanged or
strictly shortens it, so iterated application reaches a fixed point after
finitely many steps. -/
theorem c4_spacing_repair_converges (s : String) :
    (cleanChineseSpacing s = s ∨ (cleanChineseSpacing s).length < s.length) ∧
      ∃ n, cleanChineseSpacing^[n + 1] s = cleanChineseSpacing^[n] s :=
  ⟨cleanChineseSpacing_progress s, cleanChineseSpacing_iterate_fixed s⟩

theorem cleanGo_pending_pair {b : Char} (hb : isCJKChar b = true)
    (ws : List Char) (c : Char) (acc : List Char)
    (hws : ∀ x ∈ ws, isWsChar x = true) :
    cleanGo (some (c, acc)) (ws ++ [b]) = [c, b] := by
  induction ws generalizing acc with
  | nil =>
    simp only [List.nil_append, cleanGo, isCJKChar_not_ws hb, hb]
    cases acc <;> simp [cleanGo, flushPending]
  | cons x ws ih =>
    have hx : isWsChar x = true := hws x (List.mem_cons_self x ws)
    simp only [List.cons_append, cleanGo, hx, if_true]
    exact ih (x :: acc) (fun y hy => hws y (List.mem_cons_of_mem x hy))

/-- C5 counterexample: one application does not remove all whitespace
between adjacent CJK characters: `"中 文 字"` becomes `"中文 字"`, not
`"中文字"`. -/
theorem c5_counterexample :
    cleanChineseSpacing "中 文 字" = "中文 字" ∧
      cleanChineseSpacing "中 文 字" ≠ "中文字" := by decide

/-- C5 (amended): one application of the spacing repair removes the
whitespace of each leftmost non-overlapping CJK–whitespace–CJK match; an
isolated whitespace-separated CJK pair therefore always collapses, but the
right character of a match cannot anchor the next match, so in an
alternating chain every other gap survives one pass
(`"中 文 字" ↦ "中文 字"`). -/
theorem c5_pair_collapses (a b : Char) (ws : List Char)
    (ha : isCJKChar a = true) (hb : isCJKChar b = true)
    (hws : ∀ x ∈ ws, isWsChar x = true) :
    cleanSpacingL (a :: ws ++ [b]) = [a, b] ∧
      cleanChineseSpacing "中 文 字" = "中文 字" := by
  constructor
  · show cleanGo none (a :: (ws ++ [b])) = [a, b]
    simp only [cleanGo, ha, if_true]
    exact cleanGo_pending_pair hb ws a [] hws
  · decide

/-- Witness for `c5_pair_collapses` at `a = '中'`, `b = '文'`,
`ws = [' ']`. -/
theorem c5_pair_collapses_witness :
    cleanSpacingL ('中' :: [' '] ++ ['文']) = ['中', '文'] ∧
      cleanChineseSpacing "中 文 字" = "中文 字" :=
  c5_pair_collapses '中' '文' [' '] (by decide) (by decide) (by decide)

/-! ## The line-merge rule -/

theorem mergeFold_goSplit (lines : List (List Char)) :
    ∀ (merged : List (List Char)) (buf : List Char), buf ≠ [] →
      (∀ l ∈ lines, l ≠ [] ∧ lineTransform l = l) →
      (let st := lines.foldl mergeStep (merged, buf)
       if st.2.isEmpty then st.1 else st.1 ++ [st.2]) = merged ++ goSplit buf lines := by
  induction lines with
  | nil =>
    intro merged buf hbuf _
    simp [goSplit, List.isEmpty_iff, hbuf]
  | cons l rest ih =>
    intro merged buf hbuf hl
    obtain ⟨hlne, hlfix⟩ := hl l (List.mem_cons_self l rest)
    have hrest : ∀ x ∈ rest, x ≠ [] ∧ lineTransform x = x :=
      fun x hx => hl x (List.mem_cons_of_mem l hx)
    have hstep : mergeStep (merged, buf) l =
        if endsWithEndPunct buf then (merged ++ [buf], l)
        else (merged, buf ++ ' ' :: l) := by
      simp [mergeStep, List.isEmpty_iff, hbuf, hlfix]
    by_cases hp : endsWithEndPunct buf = true
    · rw [List.foldl_cons, hstep, if_pos hp, ih (merged ++ [buf]) l hlne hrest]
      simp [goSplit, hp]
    · rw [List.foldl_cons, hstep, if_neg hp, ih merged (buf ++ ' ' :: l) (by simp) hrest]
      simp [goSplit, hp]

/-- C3 counterexample: the half-width period `'.'` is not in the
`end_punct` tuple, so a buffer ending in `'.'` is joined to the next line
with a space instead of being emitted as a finished paragraph:
`"abc.\ndef"` formats to the single paragraph `"abc. def"`. -/
theorem c3_counterexample :
    formatPageText "abc.\ndef" = "abc. def" ∧
      formatPageText "abc.\ndef" ≠ "abc.\n\ndef" := by decide

/-- C3 (amended): on every sequence of cleaned non-blank lines, a line is
joined to the current paragraph buffer with a single space unless the
buffer ends with a character of the `end_punct` tuple `。！？!?：:；;…”"）)`
(full-width period, full- and half-width exclamation, question mark,
colon and semicolon, ellipsis, closing quotes, closing parentheses); when
it does, the buffer is emitted as a finished paragraph and the line
starts a new buffer.  The half-width period `'.'` is not in the set. -/
theorem c3_merge_rule (lines : List (List Char))
    (h : ∀ l ∈ lines, l ≠ [] ∧ lineTransform l = l) :
    mergeLines lines = splitAtTerminal lines := by
  cases lines with
  | nil => rfl
  | cons l rest =>
    obtain ⟨hlne, hlfix⟩ := h l (List.mem_cons_self l rest)
    have hrest : ∀ x ∈ rest, x ≠ [] ∧ lineTransform x = x :=
      fun x hx => h x (List.mem_cons_of_mem l hx)
    show (let st := (l :: rest).foldl mergeStep ([], [])
          if st.2.isEmpty then st.1 else st.1 ++ [st.2]) = splitAtTerminal (l :: rest)
    have hfirst : mergeStep ([], []) l = ([], l) := by
      simp [mergeStep, hlfix]
    simp only [List.foldl_cons, hfirst]
    rw [mergeFold_goSplit rest [] l hlne hrest]
    rfl

/-- Witness for `c3_merge_rule` on the spec's own three-line example. -/
theorem c3_merge_rule_witness :
    (∀ l ∈ ["第一行".data, "第二行。".data, "第三行".data], l ≠ [] ∧ lineTransform l = l) ∧
      mergeLines ["第一行".data, "第二行。".data, "第三行".data] =
        splitAtTerminal ["第一行".data, "第二行。".data, "第三行".data] :=
  ⟨by decide, c3_merge_rule _ (by decide)⟩

/-! ## Text-layer transformation order -/

/-- C6 counterexample: in `_extract_text_layer_pages` the CJK spacing
repair runs before token removal, so the configured token `"页 眉"` (which
contains whitespace between CJK characters) no longer occurs when the
removal runs: the source-order result keeps the collapsed header while the
spec-order result removes it. -/
theorem c6_counterexample :
    extractPageText (some "页 眉正文") ["页 眉"] false = "页眉正文" ∧
      specOrderPageText (some "页 眉正文") ["页 眉"] false = "正文" ∧
      extractPageText (some "页 眉正文") ["页 眉"] false ≠
        specOrderPageText (some "页 眉正文") ["页 眉"] false := by decide

/-- C6 (amended): in text-layer mode the CJK spacing repair is applied to
the raw page text first, and token removal operates on the repaired text
(followed by optional formatting and a final strip); consequently a
configured token containing whitespace between CJK characters is no
longer matched and is not removed. -/
theorem c6_clean_before_removal (c : String) (tokens : List String)
    (af : Bool) (hc : c ≠ "") :
    (extractPageText (some c) tokens af =
      (let c2 := tokens.foldl (fun acc t => pyReplace acc t "") (cleanChineseSpacing c)
       ⟨stripBoth (if af then formatPageText c2 else c2).data⟩)) ∧
      extractPageText (some "页 眉正文") ["页 眉"] af ≠
        specOrderPageText (some "页 眉正文") ["页 眉"] af := by
  constructor
  · simp [extractPageText, hc]
  · cases af <;> decide

/-- Witness for `c6_clean_before_removal` on the header-token example. -/
theorem c6_clean_before_removal_witness :
    extractPageText (some "页 眉正文") ["页 眉"] false ≠
      specOrderPageText (some "页 眉正文") ["页 眉"] false :=
  (c6_clean_before_removal "页 眉正文" ["页 眉"] false (by decide)).2

/-! ## The progress signal -/

theorem progressFold_trace {β : Type _} (total : Nat) (order : List β) :
    ∀ (c0 : Nat) (t0 : List (Nat × Nat)),
      order.foldl (fun st _ => progressStep total st) (c0, t0) =
        (c0 + order.length,
          t0 ++ (List.range order.length).map (fun k => (c0 + k + 1, total))) := by
  induction order with
  | nil => intro c0 t0; simp
  | cons x rest ih =>
    intro c0 t0
    rw [List.foldl_cons]
    have hone : progressStep total (c0, t0) = (c0 + 1, t0 ++ [(c0 + 1, total)]) := rfl
    rw [hone, ih (c0 + 1) (t0 ++ [(c0 + 1, total)])]
    refine Prod.ext ?_ ?_
    · simp only [List.length_cons]
      omega
    · simp only [List.length_cons, List.range_succ_eq_map, List.map_cons,
        List.map_map, List.append_assoc, List.cons_append, List.nil_append]
      have h0 : c0 + 0 + 1 = c0 + 1 := by omega
      rw [h0]
      have hmap : List.map (fun k => (c0 + 1 + k + 1, total)) (List.range rest.length)
          = List.map ((fun k => (c0 + k + 1, total)) ∘ Nat.succ) (List.range rest.length) :=
        List.map_congr_left fun a _ => Prod.ext (by simp; omega) rfl
      rw [hmap]

theorem canonicalTrace_eq_map (n : Nat) :
    canonicalTrace n = (List.range (n + 1)).map (fun i => (i, n)) := by
  rw [List.range_succ_eq_map]
  simp [canonicalTrace, Function.comp]

theorem parallelProgressTrace_eq {N : Nat} {order : List Nat}
    (h : order.length = N) : parallelProgressTrace N order = canonicalTrace N := by
  unfold parallelProgressTrace
  rw [progressFold_trace N order 0 [(0, N)], h]
  simp [canonicalTrace]

theorem textLayerProgressTrace_eq (pages : List (Option String)) :
    textLayerProgressTrace pages = canonicalTrace pages.length := by
  unfold textLayerProgressTrace
  rw [progressFold_trace pages.length pages 0 [(0, pages.length)]]
  simp [canonicalTrace]

/-- C2: with a progress callback supplied, both page loops invoke it first
with `(0, N)` before any page work, then exactly once per completed page;
the trace of both `_ocr_pages_in_parallel` (under any completion order)
and `_extract_text_layer_pages` is the canonical `(0,N), (1,N), …, (N,N)`:
its `completed` components are non-decreasing, `total = N` on every call,
and the final call has `completed = total`. -/
theorem c2_progress_contract (N : Nat) (order : List Nat)
    (pages : List (Option String)) (hperm : order.Perm (List.range N))
    (hpages : pages.length = N) :
    parallelProgressTrace N order = canonicalTrace N ∧
      textLayerProgressTrace pages = canonicalTrace N ∧
      (canonicalTrace N).head? = some (0, N) ∧
      (canonicalTrace N).length = N + 1 ∧
      List.Chain' (fun a b => a.1 ≤ b.1) (canonicalTrace N) ∧
      (∀ e ∈ canonicalTrace N, e.2 = N) ∧
      (canonicalTrace N).getLast? = some (N, N) := by
  have hlen : order.length = N := by
    simpa using hperm.length_eq
  refine ⟨parallelProgressTrace_eq hlen, hpages ▸ textLayerProgressTrace_eq pages,
    rfl, by simp [canonicalTrace], ?_, ?_, ?_⟩
  · rw [canonicalTrace_eq_map, List.chain'_map]
    rw [List.chain'_range_succ]
    intro m _
    simp
  · intro e he
    rw [canonicalTrace_eq_map] at he
    obtain ⟨i, _, rfl⟩ := List.mem_map.mp he
    rfl
  · rw [canonicalTrace_eq_map, List.range_succ, List.map_append]
    simp

/-- Witness for `c2_progress_contract` at `N = 2`, completion order
`[1, 0]`, pages `[some "a", none]`. -/
theorem c2_progress_contract_witness :
    parallelProgressTrace 2 [1, 0] = canonicalTrace 2 ∧
      textLayerProgressTrace [some "a", none] = canonicalTrace 2 ∧
      (canonicalTrace 2).head? = some (0, 2) ∧
      (canonicalTrace 2).length = 2 + 1 ∧
      List.Chain' (fun a b => a.1 ≤ b.1) (canonicalTrace 2) ∧
      (∀ e ∈ canonicalTrace 2, e.2 = 2) ∧
      (canonicalTrace 2).getLast? = some (2, 2) :=
  c2_progress_contract 2 [1, 0] [some "a", none] (by decide) (by decide)

/-! ## Order independence of the parallel OCR collection -/

theorem foldl_set_length {γ : Type _} (f : Nat → γ) (order : List Nat)
    (b : List γ) :
    (order.foldl (fun acc i => acc.set i (f i)) b).length = b.length := by
  induction order generalizing b with
  | nil => rfl
  | cons i rest ih => simpa using ih (b.set i (f i))

theorem foldl_set_getElem?_not_mem {γ : Type _} (f : Nat → γ) (order : List Nat)
    (b : List γ) (j : Nat) (hj : j ∉ order) :
    (order.foldl (fun acc i => acc.set i (f i)) b)[j]? = b[j]? := by
  induction order generalizing b with
  | nil => rfl
  | cons i rest ih =>
    have hji : j ≠ i := fun h => hj (h ▸ List.mem_cons_self i rest)
    have hjr : j ∉ rest := fun h => hj (List.mem_cons_of_mem i h)
    rw [List.foldl_cons, ih (b.set i (f i)) hjr, List.getElem?_set_ne hji.symm]

theorem foldl_set_getElem?_mem {γ : Type _} (f : Nat → γ) (order : List Nat)
    (b : List γ) (j : Nat) (hj : j ∈ order) (hlen : j < b.length) :
    (order.foldl (fun acc i => acc.set i (f i)) b)[j]? = some (f j) := by
  induction order generalizing b with
  | nil => cases hj
  | cons i rest ih =>
    rw [List.foldl_cons]
    by_cases hjr : j ∈ rest
    · exact ih (b.set i (f i)) hjr (by simpa using hlen)
    · have hji : j = i := by
        rcases List.mem_cons.mp hj with h | h
        · exact h
        · exact absurd h hjr
      subst hji
      rw [foldl_set_getElem?_not_mem f rest (b.set j (f j)) j hjr,
        List.getElem?_set_self hlen]

/-- C1: for every list of page images, every language code, every OCR
engine choice and every worker bound, `_ocr_pages_in_parallel` returns
exactly one text per image, the text at index `i` being the recognition
result of the image at index `i`, independent of the order in which the
workers complete. -/
theorem c1_order_independent {α : Type _} [Inhabited α] (images : List α)
    (lang : String) (engine : OcrEngine) (tess paddle : String → α → String)
    (maxWorkers : Option Nat) (order : List Nat)
    (hperm : order.Perm (List.range images.length)) :
    ocrPagesInParallel images lang engine tess paddle maxWorkers order =
      images.map (workerRecognize engine lang tess paddle) := by
  apply List.ext_getElem?
  intro j
  show ((runWorkers images engine lang tess paddle order).map _)[j]? = _
  rw [List.getElem?_map, List.getElem?_map]
  unfold runWorkers
  by_cases hj : j < images.length
  · have hmem : j ∈ order := hperm.mem_iff.mpr (List.mem_range.mpr hj)
    rw [foldl_set_getElem?_mem _ _ _ _ hmem (by simpa using hj),
      List.getElem?_eq_getElem hj]
    simp [List.getElem?_eq_getElem hj, orEmpty_eq]
  · have hge : images.length ≤ j := Nat.le_of_not_lt hj
    have h1 : (order.foldl
        (fun acc i => acc.set i
          (some (workerRecognize engine lang tess paddle (images.getD i default))))
        (List.replicate images.length (none : Option String)))[j]? = none := by
      apply List.getElem?_eq_none
      rw [foldl_set_length]
      simpa using hge
    rw [h1, List.getElem?_eq_none hge]
    rfl

/-- Witness for `c1_order_independent`: three pages completed in the
order `2, 0, 1` still yield the page texts in page order. -/
theorem c1_order_independent_witness :
    ocrPagesInParallel [10, 20, 30] "eng" OcrEngine.tesseract
        (fun lang n => toString n ++ lang) (fun _ _ => "p") (some 2) [2, 0, 1] =
      [10, 20, 30].map (workerRecognize OcrEngine.tesseract "eng"
        (fun lang n => toString n ++ lang) (fun _ _ => "p")) :=
  c1_order_independent [10, 20, 30] "eng" OcrEngine.tesseract
    (fun lang n => toString n ++ lang) (fun _ _ => "p") (some 2) [2, 0, 1]
    (by decide)

/-! ## Pagination of the persisted document -/

theorem assemble_aux (ts : List String) : ∀ (k L : Nat) (acc : List DocItem),
    k + ts.length = L + 1 →
    (List.enumFrom k ts).foldl
      (fun doc p =>
        let doc2 := doc ++ [DocItem.paragraph p.2]
        if p.1 ≠ L then doc2 ++ [DocItem.pageBreak] else doc2) acc
      = acc ++ List.intersperse DocItem.pageBreak (ts.map DocItem.paragraph) := by
  induction ts with
  | nil => intro k L acc _; simp [List.enumFrom]
  | cons t rest ih =>
    intro k L acc h
    rw [show List.enumFrom k (t :: rest) = (k, t) :: List.enumFrom (k + 1) rest from rfl,
      List.foldl_cons]
    cases rest with
    | nil =>
      have hk : k = L := by
        simp only [List.length_cons, List.length_nil] at h
        omega
      simp [hk]
    | cons r rs =>
      have hk : k ≠ L := by
        simp only [List.length_cons] at h
        omega
      have hinit : (let doc2 := acc ++ [DocItem.paragraph (k, t).2]
          if (k, t).1 ≠ L then doc2 ++ [DocItem.pageBreak] else doc2)
          = acc ++ [DocItem.paragraph t, DocItem.pageBreak] := by
        simp [hk]
      rw [hinit, ih (k + 1) L (acc ++ [DocItem.paragraph t, DocItem.pageBreak])
        (by simp only [List.length_cons] at h ⊢; omega)]
      simp

theorem intersperse_doc_stats (ts : List String) :
    (List.intersperse DocItem.pageBreak (ts.map DocItem.paragraph)).countP
        DocItem.isPara = ts.length ∧
      (List.intersperse DocItem.pageBreak (ts.map DocItem.paragraph)).countP
        DocItem.isBreak = ts.length - 1 ∧
      (List.intersperse DocItem.pageBreak (ts.map DocItem.paragraph)).filterMap
        DocItem.paraText = ts := by
  match ts with
  | [] => refine ⟨rfl, rfl, rfl⟩
  | [t] => refine ⟨rfl, rfl, rfl⟩
  | t1 :: t2 :: rest =>
    obtain ⟨ih1, ih2, ih3⟩ := intersperse_doc_stats (t2 :: rest)
    refine ⟨?_, ?_, ?_⟩
    · simp only [List.map_cons, List.intersperse_cons₂, List.countP_cons] at ih1 ⊢
      simp [DocItem.isPara] at ih1 ⊢
      omega
    · simp only [List.map_cons, List.intersperse_cons₂, List.countP_cons] at ih2 ⊢
      simp only [List.length_cons] at ih2 ⊢
      simp [DocItem.isBreak] at ih2 ⊢
      omega
    · simp only [List.map_cons, List.intersperse_cons₂, List.filterMap_cons] at ih3 ⊢
      simp [DocItem.paraText] at ih3 ⊢
      exact ih3

/-- C7: for every list of page texts, the assembly loop shared by all
three conversion modes produces one paragraph block per page in page
order (empty blocks included) with one page break between consecutive
pages: exactly `N` paragraph blocks, exactly `N - 1` page breaks, and the
paragraph texts in order are exactly the page texts. -/
theorem c7_pagination (texts : List String) :
    assembleDoc texts =
        List.intersperse DocItem.pageBreak (texts.map DocItem.paragraph) ∧
      (assembleDoc texts).countP DocItem.isPara = texts.length ∧
      (assembleDoc texts).countP DocItem.isBreak = texts.length - 1 ∧
      (assembleDoc texts).filterMap DocItem.paraText = texts := by
  have hmain : assembleDoc texts =
      List.intersperse DocItem.pageBreak (texts.map DocItem.paragraph) := by
    unfold assembleDoc
    simp only [orEmpty_eq]
    have := assemble_aux texts 1 texts.length []
      (by omega)
    simpa using this
  obtain ⟨h1, h2, h3⟩ := intersperse_doc_stats texts
  exact ⟨hmain, hmain ▸ h1, hmain ▸ h2, hmain ▸ h3⟩

/-! ## Empty-source handling -/

/-- C8 counterexample: on a source whose rasterisation yields zero pages,
`convert_pdf_to_docx_mac_vision` raises no empty-source error at all — it
succeeds and saves an empty document. -/
theorem c8_counterexample :
    convertPdfToDocxMacVision true true true ([] : List Nat) (fun _ => "") true =
        .ok [] ∧
      ∀ e, convertPdfToDocxMacVision true true true ([] : List Nat) (fun _ => "") true ≠
        .error e :=
  ⟨rfl, fun _ h => Except.noConfusion h⟩

/-- C8 (amended): on zero rasterised pages the tesseract/paddle path
(`convert_pdf_to_docx`) raises its empty-source `ValueError` before
writing anything, and with at least one page it does not; the mac-vision
path performs no zero-page check and always persists a document (an empty
one for a zero-page source). -/
theorem c8_empty_source {α : Type _} [Inhabited α] (lang : String)
    (engine : OcrEngine) (tess paddle : String → α → String)
    (maxWorkers : Option Nat) (af : Bool) (order : List Nat)
    (images : List α) (hne : images ≠ []) :
    convertPdfToDocx true ([] : List α) lang engine tess paddle maxWorkers af order =
        .error .emptySource ∧
      (∃ doc, convertPdfToDocx true images lang engine tess paddle maxWorkers af order =
        .ok doc) ∧
      ∀ (pages : List α) (recognize : α → String) (af2 : Bool),
        ∃ doc, convertPdfToDocxMacVision true true true pages recognize af2 = .ok doc := by
  refine ⟨rfl, ?_, fun pages recognize af2 => ⟨_, rfl⟩⟩
  have hie : images.isEmpty = false := by
    simp [List.isEmpty_iff, hne]
  refine ⟨assembleDoc (if af then
      (ocrPagesInParallel images lang engine tess paddle maxWorkers order).map
        formatPageText
    else ocrPagesInParallel images lang engine tess paddle maxWorkers order), ?_⟩
  simp only [convertPdfToDocx, hie, Bool.not_true]
  rfl

/-- Witness for `c8_empty_source` with one nonempty page list. -/
theorem c8_empty_source_witness :
    convertPdfToDocx true ([] : List Nat) "chi_sim" OcrEngine.tesseract
        (fun _ _ => "t") (fun _ _ => "p") none true [] = .error .emptySource ∧
      (∃ doc, convertPdfToDocx true [7] "chi_sim" OcrEngine.tesseract
        (fun _ _ => "t") (fun _ _ => "p") none true [0] = .ok doc) ∧
      ∀ (pages : List Nat) (recognize : Nat → String) (af2 : Bool),
        ∃ doc, convertPdfToDocxMacVision true true true pages recognize af2 = .ok doc :=
  c8_empty_source "chi_sim" OcrEngine.tesseract (fun _ _ => "t") (fun _ _ => "p")
    none true [0] [7] (by decide)

/-! ## Output-path normalisation -/

theorem pyEndsWith_lower_iff (l : List Char) :
    pyEndsWith (pyLower l) docxSuffix = true ↔
      ∃ q suf, l = q ++ suf ∧ suf.map asciiLower = docxSuffix := by
  constructor
  · intro h
    have heq : (pyLower l).drop ((pyLower l).length - docxSuffix.length) = docxSuffix := by
      simpa [pyEndsWith] using h
    refine ⟨l.take (l.length - docxSuffix.length), l.drop (l.length - docxSuffix.length),
      (List.take_append_drop _ l).symm, ?_⟩
    rw [List.map_drop]
    have hlenl : (pyLower l).length = l.length := List.length_map l asciiLower
    rw [hlenl] at heq
    exact heq
  · rintro ⟨q, suf, rfl, hmap⟩
    have hlow : pyLower (q ++ suf) = q.map asciiLower ++ docxSuffix := by
      unfold pyLower
      rw [List.map_append, hmap]
    simp only [pyEndsWith, hlow, List.length_append]
    have hsub : (q.map asciiLower).length + docxSuffix.length - docxSuffix.length =
        (q.map asciiLower).length := by omega
    rw [hsub, List.drop_left]
    simp

/-- C10: the extension check shared by all three conversion modes is
case-insensitive: when the requested path has a suffix whose ASCII
lowercasing is `".docx"` (e.g. `".DOCX"`), the path is used unchanged;
otherwise the lowercase suffix `".docx"` is appended exactly once. -/
theorem c10_output_extension (p : String) :
    ((∃ q suf, p.data = q ++ suf ∧ suf.map asciiLower = docxSuffix) →
        finalizeOutputPath p = p) ∧
      ((¬ ∃ q suf, p.data = q ++ suf ∧ suf.map asciiLower = docxSuffix) →
        finalizeOutputPath p = p ++ ".docx") := by
  constructor
  · intro h
    unfold finalizeOutputPath
    rw [if_pos ((pyEndsWith_lower_iff p.data).mpr h)]
  · intro h
    unfold finalizeOutputPath
    rw [if_neg (fun hb => h ((pyEndsWith_lower_iff p.data).mp hb))]

/-- Witness for `c10_output_extension` at `"a.DOCX"`: the upper-case
suffix is accepted unchanged. -/
theorem c10_output_extension_witness : finalizeOutputPath "a.DOCX" = "a.DOCX" :=
  (c10_output_extension "a.DOCX").1
    ⟨['a'], ['.', 'D', 'O', 'C', 'X'], by decide, by decide⟩

/-! ## Shape of the formatter output -/

theorem noDoubleWs_cons (a : Char) (l : List Char) :
    noDoubleWs (a :: l) =
      ((match l.head? with
        | some b => !(isWsChar a && isWsChar b)
        | none => true) && noDoubleWs l) := by
  cases l <;> simp [noDoubleWs]

theorem getLast?_cons_of_ne {α : Type _} {x : α} {l : List α} (h : l ≠ []) :
    (x :: l).getLast? = l.getLast? := by
  cases l with
  | nil => exact absurd rfl h
  | cons y t => exact List.getLast?_cons_cons

theorem lastNotWs_cons {x : Char} {l : List Char} (h : l ≠ []) :
    lastNotWs (x :: l) = lastNotWs l := by
  unfold lastNotWs
  rw [getLast?_cons_of_ne h]

theorem headNotWs_dropWhile (l : List Char) :
    headNotWs (l.dropWhile isWsChar) = true := by
  have h := List.head?_dropWhile_not isWsChar l
  unfold headNotWs
  cases hh : (l.dropWhile isWsChar).head? with
  | none => rfl
  | some c =>
    rw [hh] at h
    simp [h]

theorem getLast?_dropWhile_ne (l : List Char) (h : l.dropWhile isWsChar ≠ []) :
    (l.dropWhile isWsChar).getLast? = l.getLast? := by
  induction l with
  | nil => simp at h
  | cons x rest ih =>
    rw [List.dropWhile_cons] at h ⊢
    by_cases hw : isWsChar x = true
    · rw [if_pos hw] at h ⊢
      have hr : rest ≠ [] := by
        intro hrest
        rw [hrest] at h
        simp at h
      rw [ih h, getLast?_cons_of_ne hr]
    · rw [if_neg hw]

theorem stripBoth_headNotWs (l : List Char) : headNotWs (stripBoth l) = true := by
  unfold stripBoth
  by_cases h : (l.dropWhile isWsChar).reverse.dropWhile isWsChar = []
  · rw [h]
    rfl
  · unfold headNotWs
    rw [List.head?_reverse, getLast?_dropWhile_ne _ h, List.getLast?_reverse]
    have h2 := headNotWs_dropWhile l
    unfold headNotWs at h2
    exact h2

theorem stripBoth_lastNotWs (l : List Char) : lastNotWs (stripBoth l) = true := by
  unfold stripBoth lastNotWs
  rw [List.getLast?_reverse]
  have h := List.head?_dropWhile_not isWsChar (l.dropWhile isWsChar).reverse
  cases hh : ((l.dropWhile isWsChar).reverse.dropWhile isWsChar).head? with
  | none => rfl
  | some c =>
    rw [hh] at h
    simp [h]

theorem cleanSpacingL_head? (l : List Char) : (cleanSpacingL l).head? = l.head? := by
  cases l with
  | nil => rfl
  | cons x rest =>
    show (cleanGo none (x :: rest)).head? = _
    simp only [cleanGo]
    split
    · obtain ⟨t, ht⟩ := cleanGo_some_cons x [] rest
      rw [ht]
      rfl
    · rfl

theorem cleanGo_getLast? (l : List Char) : ∀ p, l ≠ [] →
    (cleanGo p l).getLast? = l.getLast? := by
  induction l with
  | nil => intro p h; exact absurd rfl h
  | cons x rest ih =>
    intro p _
    cases p with
    | none =>
      simp only [cleanGo]
      split
      · cases hr : rest with
        | nil => simp [cleanGo, flushPending]
        | cons r rs =>
          rw [← hr, ih (some (x, [])) (by rw [hr]; simp),
            getLast?_cons_of_ne (by rw [hr]; simp)]
      · cases hr : rest with
        | nil => simp [cleanGo, flushPending]
        | cons r rs =>
          rw [← hr,
            getLast?_cons_of_ne (cleanGo_ne_nil none rest (by rw [hr]; simp)),
            ih none (by rw [hr]; simp),
            getLast?_cons_of_ne (by rw [hr]; simp)]
    | some cw =>
      obtain ⟨c, ws⟩ := cw
      simp only [cleanGo]
      split
      · cases hr : rest with
        | nil =>
          simp only [cleanGo, flushPending, List.reverse_cons]
          rw [show c :: (ws.reverse ++ [x]) = (c :: ws.reverse) ++ [x] from rfl,
            List.getLast?_concat]
          rfl
        | cons r rs =>
          rw [← hr, ih (some (c, x :: ws)) (by rw [hr]; simp),
            getLast?_cons_of_ne (by rw [hr]; simp)]
      · split
        · split
          · cases hr : rest with
            | nil => simp [cleanGo, flushPending]
            | cons r rs =>
              rw [← hr,
                getLast?_cons_of_ne (cleanGo_ne_nil (some (x, [])) rest (by rw [hr]; simp)),
                ih (some (x, [])) (by rw [hr]; simp),
                getLast?_cons_of_ne (by rw [hr]; simp)]
          · cases hr : rest with
            | nil => simp [cleanGo, flushPending]
            | cons r rs =>
              rw [← hr, List.getLast?_cons_cons,
                getLast?_cons_of_ne (cleanGo_ne_nil none rest (by rw [hr]; simp)),
                ih none (by rw [hr]; simp),
                getLast?_cons_of_ne (by rw [hr]; simp)]
        · cases hr : rest with
          | nil =>
            simp only [cleanGo, flushPending]
            rw [show c :: ws.reverse ++ x :: ([] : List Char) =
              (c :: ws.reverse) ++ [x] from rfl, List.getLast?_concat]
            rfl
          | cons r rs =>
            rw [← hr]
            have hy : cleanGo none rest ≠ [] :=
              cleanGo_ne_nil none rest (by rw [hr]; simp)
            rw [show c :: ws.reverse ++ x :: cleanGo none rest =
                (c :: ws.reverse) ++ (x :: cleanGo none rest) from rfl,
              List.getLast?_append, getLast?_cons_of_ne hy, ih none (by rw [hr]; simp)]
            have : rest.getLast?.isSome := by
              rw [List.getLast?_isSome]
              rw [hr]
              simp
            cases hgl : rest.getLast? with
            | none => rw [hgl] at this; cases this
            | some d => simp [getLast?_cons_of_ne (show rest ≠ [] by rw [hr]; simp), hgl]

theorem cleanSpacingL_ne_nil {l : List Char} (h : l ≠ []) : cleanSpacingL l ≠ [] :=
  cleanGo_ne_nil none l h

theorem cleanSpacingL_headNotWs {l : List Char} (h : headNotWs l = true) :
    headNotWs (cleanSpacingL l) = true := by
  unfold headNotWs at h ⊢
  rw [cleanSpacingL_head?]
  exact h

theorem cleanSpacingL_lastNotWs {l : List Char} (hne : l ≠ [])
    (h : lastNotWs l = true) : lastNotWs (cleanSpacingL l) = true := by
  unfold lastNotWs at h ⊢
  unfold cleanSpacingL
  rw [cleanGo_getLast? l none hne]
  exact h

theorem headNotWs_collapseGo_true (l : List Char) :
    headNotWs (collapseGo true l) = true := by
  induction l with
  | nil => rfl
  | cons c rest ih =>
    simp only [collapseGo]
    by_cases hw : isWsChar c = true
    · simpa [hw] using ih
    · simp [hw, headNotWs]

theorem noDoubleWs_collapseGo (l : List Char) : ∀ prev,
    noDoubleWs (collapseGo prev l) = true := by
  induction l with
  | nil => intro prev; rfl
  | cons c rest ih =>
    intro prev
    simp only [collapseGo]
    by_cases hw : isWsChar c = true
    · rw [if_pos hw]
      cases prev with
      | true => simpa using ih true
      | false =>
        simp only [Bool.false_eq_true, if_false]
        rw [noDoubleWs_cons]
        have hh := headNotWs_collapseGo_true rest
        unfold headNotWs at hh
        cases hd : (collapseGo true rest).head? with
        | none => simpa [hd] using ih true
        | some b =>
          rw [hd] at hh
          simp only [hd]
          simp only [Bool.not_eq_true'] at hh
          simp [hh, ih true]
    · rw [if_neg hw, noDoubleWs_cons]
      cases hd : (collapseGo false rest).head? with
      | none => simpa [hd] using ih false
      | some b => simp [hd, hw, ih false]

theorem collapseGo_last (l : List Char) : ∀ prev, l ≠ [] → lastNotWs l = true →
    collapseGo prev l ≠ [] ∧ lastNotWs (collapseGo prev l) = true := by
  induction l with
  | nil => intro prev h; exact absurd rfl h
  | cons c rest ih =>
    intro prev _ hlast
    by_cases hr : rest = []
    · subst hr
      have hc : isWsChar c = false := by
        unfold lastNotWs at hlast
        simpa using hlast
      simp [collapseGo, hc, lastNotWs]
    · have hlast' : lastNotWs rest = true := by
        rwa [lastNotWs_cons hr] at hlast
      obtain ⟨hne', hl'⟩ := ih true hr hlast'
      simp only [collapseGo]
      by_cases hw : isWsChar c = true
      · rw [if_pos hw]
        cases prev with
        | true => exact ⟨hne', hl'⟩
        | false =>
          simp only [Bool.false_eq_true, if_false]
          refine ⟨by simp, ?_⟩
          rwa [lastNotWs_cons hne']
      · rw [if_neg hw]
        obtain ⟨hne2, hl2⟩ := ih false hr hlast'
        refine ⟨by simp, ?_⟩
        rwa [lastNotWs_cons hne2]

theorem collapseWs_headNotWs {l : List Char} (h : headNotWs l = true) :
    headNotWs (collapseWs l) = true := by
  cases l with
  | nil => rfl
  | cons c rest =>
    have hw : isWsChar c = false := by
      unfold headNotWs at h
      simpa using h
    unfold collapseWs
    simp only [collapseGo, hw]
    simp [headNotWs, hw]

/-- A line that is nonempty and has no whitespace at either end turns,
under the merge loop's per-line normalisation, into a well-formed
paragraph seed. -/
theorem goodPara_lineTransform {l : List Char} (hne : l ≠ [])
    (hh : headNotWs l = true) (hl : lastNotWs l = true) :
    goodPara (lineTransform l) = true := by
  have hcn : cleanSpacingL l ≠ [] := cleanSpacingL_ne_nil hne
  have hch : headNotWs (cleanSpacingL l) = true := cleanSpacingL_headNotWs hh
  have hcl : lastNotWs (cleanSpacingL l) = true := cleanSpacingL_lastNotWs hne hl
  obtain ⟨hkne, hkl⟩ := collapseGo_last (cleanSpacingL l) false hcn hcl
  have hkh : headNotWs (collapseWs (cleanSpacingL l)) = true := collapseWs_headNotWs hch
  have hknd : noDoubleWs (collapseWs (cleanSpacingL l)) = true :=
    noDoubleWs_collapseGo (cleanSpacingL l) false
  unfold goodPara lineTransform
  simp [List.isEmpty_iff, collapseWs] at *
  exact ⟨⟨⟨hkne, hkh⟩, hkl⟩, hknd⟩

theorem noDoubleWs_append : ∀ (xs ys : List Char), noDoubleWs xs = true →
    noDoubleWs ys = true →
    (∀ x y, xs.getLast? = some x → ys.head? = some y →
      (isWsChar x && isWsChar y) = false) →
    noDoubleWs (xs ++ ys) = true
  | [], ys, _, hy, _ => by simpa using hy
  | [x], ys, _, hy, hb => by
    rw [List.singleton_append, noDoubleWs_cons]
    cases hd : ys.head? with
    | none => simp [hy]
    | some y => simp [hb x y rfl hd, hy]
  | x1 :: x2 :: xs', ys, hx, hy, hb => by
    have hx1 : (isWsChar x1 && isWsChar x2) = false := by
      by_contra hcon
      have : (isWsChar x1 && isWsChar x2) = true := by
        cases hcase : (isWsChar x1 && isWsChar x2) with
        | true => rfl
        | false => exact absurd hcase hcon
      simp [noDoubleWs, this] at hx
    have hx2 : noDoubleWs (x2 :: xs') = true := by
      simp [noDoubleWs, hx1] at hx
      simpa [noDoubleWs] using hx
    have hrec : noDoubleWs ((x2 :: xs') ++ ys) = true :=
      noDoubleWs_append (x2 :: xs') ys hx2 hy
        (fun x y hgl hh =>
          hb x y (by rw [List.getLast?_cons_cons]; exact hgl) hh)
    show noDoubleWs (x1 :: x2 :: (xs' ++ ys)) = true
    have hrec' : noDoubleWs (x2 :: (xs' ++ ys)) = true := by
      simpa using hrec
    simp [noDoubleWs, hx1, hrec']

theorem headNotWs_append_left {a : List Char} (zs : List Char) (hne : a ≠ [])
    (h : headNotWs a = true) : headNotWs (a ++ zs) = true := by
  unfold headNotWs at h ⊢
  rw [List.head?_append]
  cases hd : a.head? with
  | none => exact absurd (List.head?_eq_none_iff.mp hd) hne
  | some c =>
    rw [hd] at h
    simp only at h
    simp [h]

theorem lastNotWs_append_right (a : List Char) {zs : List Char} (hne : zs ≠ [])
    (h : lastNotWs zs = true) : lastNotWs (a ++ zs) = true := by
  unfold lastNotWs at h ⊢
  rw [List.getLast?_append]
  cases hd : zs.getLast? with
  | none => exact absurd (List.getLast?_eq_none_iff.mp hd) hne
  | some c =>
    rw [hd] at h
    simp only at h
    simp [h]

/-- Joining two well-formed paragraphs with a single space yields a
well-formed paragraph. -/
theorem goodPara_join {a b : List Char} (ha : goodPara a = true)
    (hb : goodPara b = true) : goodPara (a ++ ' ' :: b) = true := by
  have ha' := ha
  have hb' := hb
  simp only [goodPara, Bool.and_eq_true] at ha' hb'
  obtain ⟨⟨⟨hane, hah⟩, hal⟩, hand⟩ := ha'
  obtain ⟨⟨⟨hbne, hbh⟩, hbl⟩, hbnd⟩ := hb'
  have hane' : a ≠ [] := by
    intro hx
    rw [hx] at hane
    simp at hane
  have hbne' : b ≠ [] := by
    intro hx
    rw [hx] at hbne
    simp at hbne
  have h1 : headNotWs (a ++ ' ' :: b) = true := headNotWs_append_left _ hane' hah
  have h2 : lastNotWs (a ++ ' ' :: b) = true := by
    refine lastNotWs_append_right a (by simp) ?_
    rwa [lastNotWs_cons hbne']
  have h3 : noDoubleWs (' ' :: b) = true := by
    rw [noDoubleWs_cons]
    cases hd : b.head? with
    | none => simp [hbnd]
    | some y =>
      unfold headNotWs at hbh
      rw [hd] at hbh
      simp only [Bool.not_eq_true'] at hbh
      simp [hbh, hbnd]
  have h4 : noDoubleWs (a ++ ' ' :: b) = true := by
    refine noDoubleWs_append a (' ' :: b) hand h3 ?_
    intro x y hgl hh
    unfold lastNotWs at hal
    rw [hgl] at hal
    simp only [Bool.not_eq_true'] at hal
    simp [hal]
  simp only [goodPara, Bool.and_eq_true]
  refine ⟨⟨⟨?_, h1⟩, h2⟩, h4⟩
  cases a <;> simp

theorem mergeFold_good (lines : List (List Char)) :
    ∀ (merged : List (List Char)) (buf : List Char),
      (∀ p ∈ merged, goodPara p = true) →
      (buf = [] ∨ goodPara buf = true) →
      (∀ l ∈ lines, l ≠ [] ∧ headNotWs l = true ∧ lastNotWs l = true) →
      ∀ p ∈ (let st := lines.foldl mergeStep (merged, buf)
             if st.2.isEmpty then st.1 else st.1 ++ [st.2]), goodPara p = true := by
  induction lines with
  | nil =>
    intro merged buf hm hb _ p hp
    simp only [List.foldl_nil] at hp
    by_cases he : buf.isEmpty = true
    · rw [if_pos he] at hp
      exact hm p hp
    · rw [if_neg he] at hp
      rcases List.mem_append.mp hp with h | h
      · exact hm p h
      · have hbg : goodPara buf = true := by
          rcases hb with rfl | hbg
          · simp at he
          · exact hbg
        rw [List.mem_singleton.mp h]
        exact hbg
  | cons l rest ih =>
    intro merged buf hm hb hl p hp
    obtain ⟨hlne, hlh, hll⟩ := hl l (List.mem_cons_self l rest)
    have hrest : ∀ x ∈ rest, x ≠ [] ∧ headNotWs x = true ∧ lastNotWs x = true :=
      fun x hx => hl x (List.mem_cons_of_mem l hx)
    have hgood : goodPara (lineTransform l) = true := goodPara_lineTransform hlne hlh hll
    rw [List.foldl_cons] at hp
    by_cases hbe : buf = []
    · subst hbe
      have hstep : mergeStep (merged, []) l = (merged, lineTransform l) := by
        simp [mergeStep]
      rw [hstep] at hp
      exact ih merged (lineTransform l) hm (Or.inr hgood) hrest p hp
    · have hbg : goodPara buf = true := hb.resolve_left hbe
      by_cases hpunct : endsWithEndPunct buf = true
      · have hstep : mergeStep (merged, buf) l = (merged ++ [buf], lineTransform l) := by
          simp [mergeStep, List.isEmpty_iff, hbe, hpunct]
        rw [hstep] at hp
        refine ih (merged ++ [buf]) (lineTransform l) ?_ (Or.inr hgood) hrest p hp
        intro q hq
        rcases List.mem_append.mp hq with h | h
        · exact hm q h
        · rw [List.mem_singleton.mp h]
          exact hbg
      · have hstep : mergeStep (merged, buf) l = (merged, buf ++ ' ' :: lineTransform l) := by
          simp [mergeStep, List.isEmpty_iff, hbe, hpunct]
        rw [hstep] at hp
        exact ih merged (buf ++ ' ' :: lineTransform l) hm
          (Or.inr (goodPara_join hbg hgood)) hrest p hp

/-- C9: the page-text formatter returns either the empty string or the
double-newline join of its paragraph list, and every paragraph in that
list is nonempty, has no leading or trailing whitespace, and contains no
run of two or more consecutive whitespace characters. -/
theorem c9_formatter_shape (s : String) :
    formatPageText s = ⟨List.intercalate ['\n', '\n'] (formatParagraphs s.data)⟩ ∧
      ∀ p ∈ formatParagraphs s.data, goodPara p = true := by
  refine ⟨rfl, ?_⟩
  intro p hp
  unfold formatParagraphs at hp
  by_cases he : (stripBoth s.data).isEmpty = true
  · rw [if_pos he] at hp
    cases hp
  · rw [if_neg he] at hp
    have hlines : ∀ l ∈ nonBlankLines (stripBoth s.data),
        l ≠ [] ∧ headNotWs l = true ∧ lastNotWs l = true := by
      intro l hl
      unfold nonBlankLines at hl
      have hmem := List.mem_filter.mp hl
      obtain ⟨q, _, rfl⟩ := List.mem_map.mp hmem.1
      refine ⟨?_, stripBoth_headNotWs q, stripBoth_lastNotWs q⟩
      have h2 := hmem.2
      simpa [List.isEmpty_iff] using h2
    unfold mergeLines at hp
    exact mergeFold_good _ [] [] (fun q hq => absurd hq (List.not_mem_nil q))
      (Or.inl rfl) hlines p hp

/-- Witness for `c4_spacing_repair_converges` at `"中 文 字"`. -/
theorem c4_spacing_repair_converges_witness :
    (cleanChineseSpacing "中 文 字" = "中 文 字" ∨
        (cleanChineseSpacing "中 文 字").length < ("中 文 字" : String).length) ∧
      ∃ n, cleanChineseSpacing^[n + 1] "中 文 字" = cleanChineseSpacing^[n] "中 文 字" :=
  c4_spacing_repair_converges "中 文 字"

/-- Witness for `c7_pagination` at three pages with an empty middle page. -/
theorem c7_pagination_witness :
    assembleDoc ["a", "", "c"] =
        List.intersperse DocItem.pageBreak (["a", "", "c"].map DocItem.paragraph) ∧
      (assembleDoc ["a", "", "c"]).countP DocItem.isPara = (["a", "", "c"]).length ∧
      (assembleDoc ["a", "", "c"]).countP DocItem.isBreak = (["a", "", "c"]).length - 1 ∧
      (assembleDoc ["a", "", "c"]).filterMap DocItem.paraText = ["a", "", "c"] :=
  c7_pagination ["a", "", "c"]

/-- Witness for `c9_formatter_shape` on a three-line page. -/
theorem c9_formatter_shape_witness :
    formatPageText "第一行\n第二行。\n第三行" =
        ⟨List.intercalate ['\n', '\n'] (formatParagraphs "第一行\n第二行。\n第三行".data)⟩ ∧
      ∀ p ∈ formatParagraphs "第一行\n第二行。\n第三行".data, goodPara p = true :=
  c9_formatter_shape "第一行\n第二行。\n第三行"

end PdfOcr
